import Mathlib

/-!
Verification of the `MemoryDB` in-memory vector similarity store.

The embedding models the store's nested string-keyed JavaScript objects as
insertion-ordered association lists (`Obj`), JavaScript numbers as real
numbers, and thrown errors as `Except` values.  `Object.entries` iteration
order is insertion order; assigning an existing key overwrites the value in
place, a new key is appended.  `Array.prototype.sort` is the stable sort
mandated by the language, modelled by `List.mergeSort`.  The statement
`matches.length = req.limit` resizes the array: when the limit exceeds the
current length the array is padded with undefined holes, modelled by `none`
entries (`setLength`).
-/

namespace AX

open Classical

/-- Errors thrown by the store: a missing table on query, a vector length
mismatch in `distance`, and save/load without a configured filename. -/
inductive DBError where
  | tableNotFound (table : String)
  | dimensionMismatch
  | fileNotConfigured
deriving DecidableEq

/-- A record as inserted: its id, its table, an optional vector of values and
optional opaque metadata (modelled as a list of key/value pairs). -/
structure DBUpsertRequest where
  id : String
  table : String
  values : Option (List ℝ) := none
  metadata : Option (List (String × String)) := none

/-- Response of `upsert`/`batchUpsert`: the ids written. -/
structure DBUpsertResponse where
  ids : List String

/-- A query: the table name, the optional query vector, the optional limit. -/
structure DBQueryRequest where
  table : String
  values : Option (List ℝ) := none
  limit : Option Nat := none

/-- One query match: record id, distance score, copied metadata. -/
structure Match where
  id : String
  score : ℝ
  metadata : Option (List (String × String))

/-- Query response.  Entries are `Option Match` because the JavaScript
`matches.length = req.limit` resize can leave undefined holes. -/
structure DBQueryResponse where
  matches' : List (Option Match)

/-- A JavaScript object with string keys, as an insertion-ordered
association list. -/
abbrev Obj (α : Type) := List (String × α)

/-- The store: table name ↦ (record id ↦ record). -/
abbrev MemoryDB := Obj (Obj DBUpsertRequest)

/-- Key membership test on a JavaScript object. -/
def objHas (m : Obj α) (k : String) : Bool :=
  m.any (fun p => p.1 == k)

/-- Property read `m[k]`: the first entry with key `k`, if any. -/
def objGet (m : Obj α) (k : String) : Option α :=
  (m.find? (fun p => p.1 == k)).map Prod.snd

/-- Property write `m[k] = v`: overwrite in place when the key exists,
append otherwise. -/
def objSet (m : Obj α) (k : String) (v : α) : Obj α :=
  if objHas m k then m.map (fun p => if p.1 == k then (k, v) else p)
  else m ++ [(k, v)]

/-- Object spread `{...a, ...b}`: keys of `a` in order with values overridden
by `b` where present, then the keys of `b` not in `a`, in order. -/
def objMerge (a b : Obj α) : Obj α :=
  a.map (fun p =>
    match objGet b p.1 with
    | some v => (p.1, v)
    | none => p)
    ++ b.filter (fun p => !objHas a p.1)

/-- Cosine distance between two vectors, embedded from `distance`: length
check, one accumulator pass computing the dot product and both squared norms
together with the all-zero flags, the all-zero special case returning `1`,
else `1 - dot / (√normA * √normB)`. -/
noncomputable def distance (a b : List ℝ) : Except DBError ℝ :=
  if a.length ≠ b.length then .error .dimensionMismatch
  else
    let acc := (a.zip b).foldl
      (fun s p => (s.1 + p.1 * p.2, s.2.1 + p.1 * p.1, s.2.2 + p.2 * p.2))
      ((0 : ℝ), (0 : ℝ), (0 : ℝ))
    if (∀ x ∈ a, x = 0) ∨ (∀ x ∈ b, x = 0) then .ok 1
    else .ok (1 - acc.1 / (Real.sqrt acc.2.1 * Real.sqrt acc.2.2))

/-- The `Object.entries(table).forEach` loop of `query`: for each record in
insertion order, when both the query vector and the record's values are
present, score the record; a `distance` error aborts the whole loop. -/
noncomputable def collectMatches (qv : Option (List ℝ)) :
    Obj DBUpsertRequest → Except DBError (List Match)
  | [] => .ok []
  | (i, data) :: rest =>
    match qv, data.values with
    | some q, some v =>
      match distance q v with
      | .error e => .error e
      | .ok score =>
        match collectMatches qv rest with
        | .error e => .error e
        | .ok ms => .ok (⟨i, score, data.metadata⟩ :: ms)
    | _, _ => collectMatches qv rest

/-- JavaScript `xs.length = n` on an array of `xs.length` real elements:
truncates when `n` is smaller, pads with undefined holes when larger. -/
def setLength (xs : List Match) (n : Nat) : List (Option Match) :=
  (xs.map some ++ List.replicate (n - xs.length) none).take n

/-- The sort comparator `(a, b) => a.score - b.score`: ascending by score. -/
noncomputable def sortLe (a b : Match) : Bool :=
  decide (a.score ≤ b.score)

/-- `query`, embedded from the source: table lookup (throwing when absent),
the scoring loop, the stable ascending sort by score, and the truthy-limit
resize `matches.length = req.limit`. -/
noncomputable def query (db : MemoryDB) (req : DBQueryRequest) :
    Except DBError DBQueryResponse :=
  match objGet db req.table with
  | none => .error (.tableNotFound req.table)
  | some table =>
    match collectMatches req.values table with
    | .error e => .error e
    | .ok ms =>
      let sorted := ms.mergeSort sortLe
      match req.limit with
      | some k =>
        if k ≠ 0 then .ok ⟨setLength sorted k⟩ else .ok ⟨sorted.map some⟩
      | none => .ok ⟨sorted.map some⟩

/-- `upsert`: create the table when absent, write the record under its id,
return the id.  (The write-through `save` does not change the store and is
not part of the state transition.) -/
def upsert (db : MemoryDB) (req : DBUpsertRequest) :
    MemoryDB × DBUpsertResponse :=
  (objSet db req.table (objSet ((objGet db req.table).getD []) req.id req),
   ⟨[req.id]⟩)

/-- The loop of `batchUpsert`: thread the store through `upsert`,
accumulating the returned ids in order. -/
def batchUpsertGo (db : MemoryDB) (ids : List String) :
    List DBUpsertRequest → MemoryDB × DBUpsertResponse
  | [] => (db, ⟨ids⟩)
  | req :: rest => batchUpsertGo (upsert db req).1 (ids ++ (upsert db req).2.ids) rest

/-- `batchUpsert`: apply `upsert` to each request in input order. -/
def batchUpsert (db : MemoryDB) (batchReq : List DBUpsertRequest) :
    MemoryDB × DBUpsertResponse :=
  batchUpsertGo db [] batchReq

/-- `save` serializes the whole store to the snapshot file.  File I/O and the
JSON text are outside the embedding; the snapshot is modelled by the store
value it encodes (JSON round-tripping of this plain data is faithful). -/
def save (db : MemoryDB) : MemoryDB := db

/-- `load`: merge the parsed snapshot into the current state by top-level
object spread `{...memoryDB, ...obj}`. -/
def load (db : MemoryDB) (file : MemoryDB) : MemoryDB :=
  objMerge db file

/-- Spec-side dot product `dot(a,b) = Σ aᵢ·bᵢ`. -/
def dotSpec (a b : List ℝ) : ℝ :=
  (List.zipWith (fun x y => x * y) a b).sum

/-- Spec-side squared Euclidean norm `‖a‖² = Σ aᵢ²`. -/
def normSqSpec (a : List ℝ) : ℝ :=
  (a.map (fun x => x * x)).sum

/-- Well-formed object: no duplicate keys. -/
def WFobj (m : Obj α) : Prop :=
  (m.map Prod.fst).Nodup

/-- Well-formed store: no duplicate table names, no duplicate ids inside
any table. -/
def WF (db : MemoryDB) : Prop :=
  WFobj db ∧ ∀ p ∈ db, WFobj p.2

/-- Spec-side Euclidean norm `‖a‖ = √(Σ aᵢ²)`. -/
noncomputable def normSpec (a : List ℝ) : ℝ :=
  Real.sqrt (normSqSpec a)

theorem distFoldl (l : List (ℝ × ℝ)) (s : ℝ × ℝ × ℝ) :
    l.foldl (fun s p => (s.1 + p.1 * p.2, s.2.1 + p.1 * p.1, s.2.2 + p.2 * p.2)) s
      = (s.1 + (l.map fun p => p.1 * p.2).sum,
         s.2.1 + (l.map fun p => p.1 * p.1).sum,
         s.2.2 + (l.map fun p => p.2 * p.2).sum) := by
  induction l generalizing s with
  | nil => simp
  | cons p rest ih =>
    simp only [List.foldl_cons, List.map_cons, List.sum_cons, ih]
    refine Prod.ext ?_ (Prod.ext ?_ ?_) <;> simp <;> ring

/-- The accumulator loop of `distance` computes the spec-side dot product and
norms: on equal-length inputs `distance` is the guarded cosine-distance
formula. -/
theorem distance_eq (a b : List ℝ) (h : a.length = b.length) :
    distance a b = .ok (if (∀ x ∈ a, x = 0) ∨ (∀ x ∈ b, x = 0) then 1
      else 1 - dotSpec a b / (normSpec a * normSpec b)) := by
  have hfst : (a.zip b).map Prod.fst = a := List.map_fst_zip a b (le_of_eq h)
  have hsnd : (a.zip b).map Prod.snd = b := List.map_snd_zip a b (le_of_eq h.symm)
  have h1 : ((a.zip b).map fun p => p.1 * p.2).sum = dotSpec a b := by
    rw [dotSpec, List.zip_eq_zipWith, List.map_zipWith]
  have h2 : ((a.zip b).map fun p => p.1 * p.1).sum = normSqSpec a := by
    rw [normSqSpec]
    conv_rhs => rw [← hfst, List.map_map]
    rfl
  have h3 : ((a.zip b).map fun p => p.2 * p.2).sum = normSqSpec b := by
    rw [normSqSpec]
    conv_rhs => rw [← hsnd, List.map_map]
    rfl
  rw [distance, if_neg (by simpa using h)]
  simp only [distFoldl, zero_add, h1, h2, h3, normSpec]
  split_ifs <;> rfl

theorem normSqSpec_eq_dot_self (a : List ℝ) : normSqSpec a = dotSpec a a := by
  induction a with
  | nil => rfl
  | cons x t ih =>
    simp only [normSqSpec, dotSpec, List.map_cons, List.zipWith_cons_cons,
      List.sum_cons] at ih ⊢
    rw [ih]

theorem normSqSpec_nonneg (a : List ℝ) : 0 ≤ normSqSpec a := by
  refine List.sum_nonneg ?_
  intro x hx
  obtain ⟨y, _, rfl⟩ := List.mem_map.mp hx
  exact mul_self_nonneg y

theorem normSqSpec_pos (a : List ℝ) (hne : ¬ ∀ x ∈ a, x = 0) :
    0 < normSqSpec a := by
  push_neg at hne
  obtain ⟨x, hx, hx0⟩ := hne
  have h1 : x * x ∈ a.map (fun y => y * y) := List.mem_map_of_mem _ hx
  have h2 : x * x ≤ normSqSpec a := by
    refine List.single_le_sum ?_ _ h1
    intro y hy
    obtain ⟨z, _, rfl⟩ := List.mem_map.mp hy
    exact mul_self_nonneg z
  exact lt_of_lt_of_le (mul_self_pos.mpr hx0) h2

theorem dot_range : ∀ (a b : List ℝ), a.length = b.length →
    dotSpec a b = ∑ i in Finset.range a.length, a.getD i 0 * b.getD i 0
  | [], [], _ => by simp [dotSpec]
  | [], _ :: _, h => by simp at h
  | _ :: _, [], h => by simp at h
  | x :: t, y :: u, h => by
    have h' : t.length = u.length := by simpa using h
    rw [dotSpec, List.zipWith_cons_cons, List.sum_cons, List.length_cons,
        Finset.sum_range_succ']
    simp only [List.getD_cons_succ, List.getD_cons_zero]
    have := dot_range t u h'
    rw [dotSpec] at this
    rw [this]
    ring

/-- Cauchy-Schwarz transported to the list-level dot product and norms. -/
theorem neg_dot_le (a b : List ℝ) (h : a.length = b.length) :
    -dotSpec a b ≤ normSpec a * normSpec b := by
  have hcs := Real.sum_mul_le_sqrt_mul_sqrt (Finset.range a.length)
      (fun i => -(a.getD i 0)) (fun i => b.getD i 0)
  have e1 : (∑ i in Finset.range a.length, -(a.getD i 0) * b.getD i 0)
      = -dotSpec a b := by
    rw [dot_range a b h]
    simp [neg_mul, Finset.sum_neg_distrib]
  have e2 : (∑ i in Finset.range a.length, (-(a.getD i 0)) ^ 2)
      = normSqSpec a := by
    rw [normSqSpec_eq_dot_self, dot_range a a rfl]
    simp [sq]
  have e3 : (∑ i in Finset.range a.length, (b.getD i 0) ^ 2)
      = normSqSpec b := by
    rw [normSqSpec_eq_dot_self, dot_range b b rfl, ← h]
    simp [sq]
  rw [e1, e2, e3] at hcs
  exact hcs

/-- Every score `distance` can return is at most `2`. -/
theorem distance_le_two (a b : List ℝ) (r : ℝ)
    (hok : distance a b = .ok r) : r ≤ 2 := by
  by_cases h : a.length = b.length
  · rw [distance_eq a b h] at hok
    by_cases hz : (∀ x ∈ a, x = 0) ∨ (∀ x ∈ b, x = 0)
    · rw [if_pos hz] at hok
      obtain rfl : (1 : ℝ) = r := by simpa using hok
      norm_num
    · rw [if_neg hz] at hok
      rw [not_or] at hz
      obtain ⟨ha, hb⟩ := hz
      have hA := normSqSpec_pos a ha
      have hB := normSqSpec_pos b hb
      have hP : 0 < normSpec a * normSpec b :=
        mul_pos (Real.sqrt_pos.mpr hA) (Real.sqrt_pos.mpr hB)
      have hd := neg_dot_le a b h
      have hge : -1 ≤ dotSpec a b / (normSpec a * normSpec b) := by
        rw [le_div_iff₀ hP]
        linarith
      obtain rfl : _ = r := by simpa using hok
      linarith
  · rw [distance, if_pos h] at hok
    simp at hok

/-- Self-distance: `0` for any vector with a nonzero entry, `1` for an
all-zero vector. -/
theorem distance_self (v : List ℝ) :
    distance v v = .ok (if ∀ x ∈ v, x = 0 then 1 else 0) := by
  rw [distance_eq v v rfl]
  by_cases hz : ∀ x ∈ v, x = 0
  · rw [if_pos (Or.inl hz), if_pos hz]
  · rw [if_neg (by tauto), if_neg hz]
    have hA : 0 < normSqSpec v := normSqSpec_pos v hz
    have hdot : dotSpec v v = normSqSpec v := (normSqSpec_eq_dot_self v).symm
    rw [hdot, normSpec, Real.mul_self_sqrt (normSqSpec_nonneg v),
        div_self (ne_of_gt hA), sub_self]

/-- `distance [1] [1]` evaluates to `0`: concrete evaluation shared by the
witnesses below. -/
theorem distance_one_one : distance [(1 : ℝ)] [(1 : ℝ)] = .ok 0 := by
  rw [distance_self, if_neg (by norm_num)]

/-- C2: for equal-length vectors, `distance` is `1 - dot(a,b)/(‖a‖·‖b‖)`,
except that an all-zero input on either side yields exactly `1`. -/
theorem claim_C2 (a b : List ℝ) (h : a.length = b.length) :
    distance a b = .ok (if (∀ x ∈ a, x = 0) ∨ (∀ x ∈ b, x = 0) then 1
      else 1 - dotSpec a b / (normSpec a * normSpec b)) :=
  distance_eq a b h

/-- C2 witness: at `a = [0]`, `b = [3]` the all-zero special case fires and
the distance is exactly `1`. -/
theorem claim_C2_witness :
    ([(0 : ℝ)].length = [(3 : ℝ)].length) ∧
      distance [(0 : ℝ)] [(3 : ℝ)] = .ok 1 := by
  refine ⟨rfl, ?_⟩
  rw [claim_C2 [(0 : ℝ)] [(3 : ℝ)] rfl, if_pos (Or.inl (by norm_num))]

/-- C3 counterexample: the claim "distance is at most 1" fails at the
opposite vectors `[1]` and `[-1]`, where the distance is `2`. -/
theorem claim_C3_counterexample :
    distance [(1 : ℝ)] [(-1 : ℝ)] = .ok 2 ∧ ¬ ((2 : ℝ) ≤ 1) := by
  constructor
  · rw [distance_eq [(1 : ℝ)] [(-1 : ℝ)] (by simp), if_neg (by norm_num)]
    norm_num [dotSpec, normSpec, normSqSpec, Real.sqrt_one]
  · norm_num

/-- C3 amended: every value `distance` returns is at most `2` (not `1`);
`2`, not `1`, is the maximal distance value. -/
theorem claim_C3 (a b : List ℝ) (r : ℝ) (hok : distance a b = .ok r) :
    r ≤ 2 :=
  distance_le_two a b r hok

/-- C3 witness: the amended bound applied at `a = b = [1]`, `r = 0`. -/
theorem claim_C3_witness :
    distance [(1 : ℝ)] [(1 : ℝ)] = .ok 0 ∧ (0 : ℝ) ≤ 2 :=
  ⟨distance_one_one, claim_C3 [(1 : ℝ)] [(1 : ℝ)] 0 distance_one_one⟩

/-- C10: self-distance is exactly `0`, except `1` for an all-zero vector. -/
theorem claim_C10 (v : List ℝ) :
    distance v v = .ok (if ∀ x ∈ v, x = 0 then 1 else 0) :=
  distance_self v

theorem objGet_append (l₁ l₂ : Obj α) (k : String) :
    objGet (l₁ ++ l₂) k = (objGet l₁ k).or (objGet l₂ k) := by
  rw [objGet, objGet, objGet, List.find?_append]
  cases l₁.find? (fun p => p.1 == k) <;> simp

theorem objGet_eq_none_of_not_has (m : Obj α) (k : String)
    (h : objHas m k = false) : objGet m k = none := by
  rw [objHas, List.any_eq_false] at h
  rw [objGet, List.find?_eq_none.mpr h]
  rfl

theorem objGet_cons (q : String × α) (rest : Obj α) (k : String) :
    objGet (q :: rest) k = if q.1 == k then some q.2 else objGet rest k := by
  cases h : (q.1 == k) <;> simp [objGet, List.find?_cons, h]

theorem objGet_filter_not_has (a : Obj β) (k : String)
    (hk : objHas a k = false) (b : Obj α) :
    objGet (b.filter (fun p => !objHas a p.1)) k = objGet b k := by
  induction b with
  | nil => rfl
  | cons q rest ih =>
    rw [List.filter_cons]
    by_cases hkeep : objHas a q.1
    · have hqk : (q.1 == k) = false := by
        refine beq_eq_false_iff_ne.mpr ?_
        intro hEq
        rw [hEq, hk] at hkeep
        exact Bool.false_ne_true hkeep
      rw [if_neg (by simp [hkeep]), ih, objGet_cons, if_neg (by simp [hqk])]
    · rw [if_pos (by simp [Bool.eq_false_iff.mpr hkeep]), objGet_cons,
        objGet_cons, ih]

theorem objGet_map_keys (g : String × α → String × α)
    (hg : ∀ p, (g p).1 = p.1) (m : Obj α) (k : String) :
    objGet (m.map g) k = (m.find? (fun p => p.1 == k)).map (fun p => (g p).2) := by
  rw [objGet, List.find?_map]
  have hpred : ((fun p : String × α => p.1 == k) ∘ g)
      = fun p : String × α => p.1 == k := by
    funext p
    simp [Function.comp, hg p]
  rw [hpred]
  cases m.find? (fun p : String × α => p.1 == k) <;> rfl

/-- The top-level spread `{...a, ...b}` looks a key up first in `b`, then
in `a`. -/
theorem objGet_merge (a b : Obj α) (k : String) :
    objGet (objMerge a b) k = (objGet b k).or (objGet a k) := by
  have hg : ∀ p : String × α, ((match objGet b p.1 with
      | some v => (p.1, v)
      | none => p) : String × α).1 = p.1 := by
    intro p
    rcases objGet b p.1 with _ | v <;> rfl
  rw [objMerge, objGet_append, objGet_map_keys _ hg a k]
  cases hf : a.find? (fun p : String × α => p.1 == k) with
  | none =>
    have hnone : objGet a k = none := by rw [objGet, hf]; rfl
    have hhas : objHas a k = false := by
      rw [objHas, List.any_eq_false]
      exact List.find?_eq_none.mp hf
    rw [hnone, objGet_filter_not_has a k hhas b]
    cases objGet b k <;> rfl
  | some p₀ =>
    have hp₀ : p₀.1 = k := by simpa using List.find?_some hf
    have hget : objGet a k = some p₀.2 := by rw [objGet, hf]; rfl
    rw [hget, Option.map_some', hp₀]
    rcases objGet b k with _ | v <;> rfl

/-- C4: `load` merges at table granularity: a table in the file replaces the
in-memory table entirely, a table absent from the file is untouched. -/
theorem claim_C4 (db file : MemoryDB) (t : String) :
    (∀ tbl, objGet file t = some tbl → objGet (load db file) t = some tbl) ∧
    (objGet file t = none → objGet (load db file) t = objGet db t) := by
  have h := objGet_merge db file t
  rw [load] at *
  constructor
  · intro tbl htbl
    rw [h, htbl]
    rfl
  · intro hnone
    rw [h, hnone]
    rfl

/-- A record used by the C4 witness. -/
def recY : DBUpsertRequest :=
  { id := ("y"), table := ("a"), values := none, metadata := none }

/-- C4 witness store: two tables `"a"` and `"b"`, both empty. -/
def dbW : MemoryDB :=
  [(("a" : String), ([] : Obj DBUpsertRequest)), (("b" : String), [])]

/-- C4 witness snapshot: only table `"a"`, holding one record. -/
def fileW : MemoryDB :=
  [(("a" : String), [(("y" : String), recY)])]

/-- C4 witness: loading `fileW` into `dbW` replaces table `"a"` with the
file's version and leaves table `"b"` unchanged. -/
theorem claim_C4_witness :
    objGet (load dbW fileW) ("a") = some [(("y" : String), recY)] ∧
      objGet fileW ("b") = none ∧
      objGet (load dbW fileW) ("b") = objGet dbW ("b") := by
  refine ⟨(claim_C4 dbW fileW ("a")).1 _ rfl, rfl,
    (claim_C4 dbW fileW ("b")).2 rfl⟩

theorem batchUpsertGo_eq (reqs : List DBUpsertRequest) :
    ∀ (db : MemoryDB) (ids : List String),
      batchUpsertGo db ids reqs
        = (reqs.foldl (fun d r => (upsert d r).1) db,
           ⟨ids ++ reqs.map (fun r => r.id)⟩) := by
  induction reqs with
  | nil =>
    intro db ids
    simp [batchUpsertGo]
  | cons r rest ih =>
    intro db ids
    rw [batchUpsertGo, ih]
    simp [List.foldl_cons, upsert]

/-- C8: `batchUpsert` on the empty store is the sequential fold of `upsert`
over the requests in input order, and returns the ids in input order. -/
theorem claim_C8 (reqs : List DBUpsertRequest) :
    (batchUpsert [] reqs).1 = reqs.foldl (fun d r => (upsert d r).1) [] ∧
      (batchUpsert [] reqs).2.ids = reqs.map (fun r => r.id) := by
  rw [batchUpsert, batchUpsertGo_eq]
  exact ⟨rfl, by simp⟩

theorem objMerge_nil (b : Obj α) : objMerge [] b = b := by
  simp [objMerge, objHas]

/-- C9: saving and loading into a fresh (empty) store reproduces the store,
hence identical results for every query. -/
theorem claim_C9 (db : MemoryDB) (req : DBQueryRequest) :
    query (load [] (save db)) req = query db req := by
  rw [save, load, objMerge_nil]

/-- Without a query vector the scoring loop skips every record. -/
theorem collect_none : ∀ tbl : Obj DBUpsertRequest,
    collectMatches none tbl = .ok []
  | [] => rfl
  | (i, data) :: rest => by
    cases hv : data.values <;>
      simp only [collectMatches, hv] <;>
      exact collect_none rest

/-- `distance` only ever throws the dimension-mismatch error. -/
theorem distance_err (a b : List ℝ) (e : DBError)
    (h : distance a b = .error e) : e = .dimensionMismatch := by
  simp only [distance] at h
  split_ifs at h
  injection h with h'
  exact h'.symm

/-- The ids produced by the scoring loop are exactly the keys of the records
having `values`, in table order. -/
theorem collect_ids (q : List ℝ) :
    ∀ (tbl : Obj DBUpsertRequest) (ms : List Match),
      collectMatches (some q) tbl = .ok ms →
      ms.map Match.id = (tbl.filter (fun p => p.2.values.isSome)).map Prod.fst
  | [], ms, h => by
    simp only [collectMatches, Except.ok.injEq] at h
    subst h
    rfl
  | (i, data) :: rest, ms, h => by
    cases hv : data.values with
    | none =>
      simp only [collectMatches, hv] at h
      have := collect_ids q rest ms h
      simp [List.filter_cons, hv, this]
    | some v =>
      simp only [collectMatches, hv] at h
      cases hd : distance q v with
      | error e =>
        rw [hd] at h
        exact Except.noConfusion h
      | ok s =>
        rw [hd] at h
        cases hr : collectMatches (some q) rest with
        | error e =>
          rw [hr] at h
          exact Except.noConfusion h
        | ok ms' =>
          rw [hr] at h
          simp only [Except.ok.injEq] at h
          subst h
          have := collect_ids q rest ms' hr
          simp [List.filter_cons, hv, this]

/-- Any error escaping the scoring loop is a dimension mismatch. -/
theorem collect_err (qv : Option (List ℝ)) :
    ∀ (tbl : Obj DBUpsertRequest) (e : DBError),
      collectMatches qv tbl = .error e → e = .dimensionMismatch
  | [], e, h => by simp [collectMatches] at h
  | (i, data) :: rest, e, h => by
    rcases qv with _ | q
    · rw [collect_none] at h
      exact Except.noConfusion h
    · cases hv : data.values with
      | none =>
        simp only [collectMatches, hv] at h
        exact collect_err (some q) rest e h
      | some v =>
        simp only [collectMatches, hv] at h
        cases hd : distance q v with
        | error e' =>
          rw [hd] at h
          injection h with h'
          exact h' ▸ distance_err q v e' hd
        | ok s =>
          rw [hd] at h
          cases hr : collectMatches (some q) rest with
          | error e' =>
            rw [hr] at h
            injection h with h'
            exact h' ▸ collect_err (some q) rest e' hr
          | ok ms' =>
            rw [hr] at h
            exact Except.noConfusion h

/-- A record with `values` of the wrong length makes the whole scoring loop
throw. -/
theorem collect_mismatch (q : List ℝ) :
    ∀ tbl : Obj DBUpsertRequest,
      (∃ p ∈ tbl, ∃ v, p.2.values = some v ∧ v.length ≠ q.length) →
      ∃ e, collectMatches (some q) tbl = .error e
  | [], h => by simp at h
  | (i, data) :: rest, h => by
    cases hv : data.values with
    | none =>
      obtain ⟨p, hp, v, hpv, hlen⟩ := h
      rcases List.mem_cons.mp hp with rfl | hp'
      · rw [hv] at hpv
        exact Option.noConfusion hpv
      · obtain ⟨e, he⟩ := collect_mismatch q rest ⟨p, hp', v, hpv, hlen⟩
        refine ⟨e, ?_⟩
        simp only [collectMatches, hv]
        exact he
    | some v₀ =>
      by_cases hlen0 : v₀.length = q.length
      · obtain ⟨p, hp, v, hpv, hlen⟩ := h
        rcases List.mem_cons.mp hp with rfl | hp'
        · rw [hv] at hpv
          injection hpv with h'
          subst h'
          exact absurd hlen0 hlen
        · obtain ⟨e, he⟩ := collect_mismatch q rest ⟨p, hp', v, hpv, hlen⟩
          refine ⟨e, ?_⟩
          simp only [collectMatches, hv, distance_eq q v₀ hlen0.symm, he]
      · refine ⟨.dimensionMismatch, ?_⟩
        have hd : distance q v₀ = .error .dimensionMismatch := by
          rw [distance, if_pos (fun hE => hlen0 hE.symm)]
        simp only [collectMatches, hv, hd]

/-- Every match produced by the scoring loop comes from a record of the
table with `values`, scored by `distance` and carrying that record's
metadata. -/
theorem collect_mem (q : List ℝ) :
    ∀ (tbl : Obj DBUpsertRequest) (ms : List Match) (m : Match),
      collectMatches (some q) tbl = .ok ms → m ∈ ms →
      ∃ data v, (m.id, data) ∈ tbl ∧ data.values = some v ∧
        distance q v = .ok m.score ∧ m.metadata = data.metadata
  | [], ms, m, h, hm => by
    simp only [collectMatches, Except.ok.injEq] at h
    subst h
    simp at hm
  | (i, data) :: rest, ms, m, h, hm => by
    cases hv : data.values with
    | none =>
      simp only [collectMatches, hv] at h
      obtain ⟨d, v, hmem, hrest⟩ := collect_mem q rest ms m h hm
      exact ⟨d, v, List.mem_cons_of_mem _ hmem, hrest⟩
    | some v₀ =>
      simp only [collectMatches, hv] at h
      cases hd : distance q v₀ with
      | error e =>
        rw [hd] at h
        exact Except.noConfusion h
      | ok s =>
        rw [hd] at h
        cases hr : collectMatches (some q) rest with
        | error e =>
          rw [hr] at h
          exact Except.noConfusion h
        | ok ms' =>
          rw [hr] at h
          simp only [Except.ok.injEq] at h
          subst h
          rcases List.mem_cons.mp hm with rfl | hm'
          · exact ⟨data, v₀, List.mem_cons_self _ _, hv, hd, rfl⟩
          · obtain ⟨d, v, hmem, hrest⟩ := collect_mem q rest ms' m hr hm'
            exact ⟨d, v, List.mem_cons_of_mem _ hmem, hrest⟩

/-- A defined entry of the resized array was a genuine match. -/
theorem some_mem_setLength (xs : List Match) (n : Nat) (m : Match)
    (h : some m ∈ setLength xs n) : m ∈ xs := by
  rw [setLength] at h
  have h' := List.take_subset _ _ h
  rcases List.mem_append.mp h' with h1 | h2
  · obtain ⟨m', hm', hEq⟩ := List.mem_map.mp h1
    injection hEq with h''
    exact h'' ▸ hm'
  · exact Option.noConfusion (List.eq_of_mem_replicate h2)

theorem sortLe_trans : ∀ (a b c : Match),
    sortLe a b → sortLe b c → sortLe a c :=
  fun _ _ _ hab hbc => decide_eq_true
    (le_trans (of_decide_eq_true hab) (of_decide_eq_true hbc))

theorem sortLe_total : ∀ (a b : Match), sortLe a b || sortLe b a := by
  intro a b
  rw [sortLe, sortLe]
  simp only [Bool.or_eq_true, decide_eq_true_eq]
  exact le_total a.score b.score

/-- The record used by the C1 evaluation. -/
def recC1 : DBUpsertRequest :=
  { id := ("a"), table := ("t"), values := some [(1 : ℝ)], metadata := none }

/-- C1 store: one table `"t"` with a single eligible record. -/
def dbC1 : MemoryDB := [(("t" : String), [(("a" : String), recC1)])]

/-- C1 query: limit `2` against a table with a single eligible record. -/
def reqC1 : DBQueryRequest :=
  { table := ("t"), values := some [(1 : ℝ)], limit := some 2 }

/-- C1 query with limit `0` against the same table. -/
def reqC1zero : DBQueryRequest :=
  { table := ("t"), values := some [(1 : ℝ)], limit := some 0 }

/-- C1: with one eligible record and `limit = 2`, the JavaScript resize
`matches.length = req.limit` pads the result to length `2` with an
undefined entry instead of clamping to `min(limit, matches) = 1`; and with
`limit = 0` (falsy) no truncation happens, so the result is not empty. -/
theorem claim_C1 :
    query dbC1 reqC1
        = .ok ⟨[some { id := ("a"), score := 0, metadata := none }, none]⟩
    ∧ query dbC1 reqC1zero
        = .ok ⟨[some { id := ("a"), score := 0, metadata := none }]⟩ := by
  have h2 : collectMatches (some [(1 : ℝ)]) [(("a" : String), recC1)]
      = .ok [{ id := ("a"), score := 0, metadata := none }] := by
    simp [collectMatches, recC1, distance_one_one]
  constructor
  · have h1 : objGet dbC1 reqC1.table = some [(("a" : String), recC1)] := rfl
    have h2' : collectMatches reqC1.values [(("a" : String), recC1)]
        = .ok [{ id := ("a"), score := 0, metadata := none }] := h2
    simp only [query, h1, h2']
    simp [reqC1, setLength, List.mergeSort_singleton, List.replicate]
  · have h1 : objGet dbC1 reqC1zero.table = some [(("a" : String), recC1)] :=
      rfl
    have h2' : collectMatches reqC1zero.values [(("a" : String), recC1)]
        = .ok [{ id := ("a"), score := 0, metadata := none }] := h2
    simp only [query, h1, h2']
    simp [reqC1zero, List.mergeSort_singleton]

/-- C5: with the table present, a query vector supplied and no limit, the
result is exactly one defined match per record with `values` (none missing,
none fabricated), sorted ascending by score. -/
theorem claim_C5 (db : MemoryDB) (req : DBQueryRequest)
    (tbl : Obj DBUpsertRequest) (q : List ℝ) (resp : DBQueryResponse)
    (ht : objGet db req.table = some tbl) (hq : req.values = some q)
    (hl : req.limit = none) (hok : query db req = .ok resp) :
    ∃ ms : List Match,
      resp.matches' = ms.map some ∧
      (ms.map Match.id).Perm
        ((tbl.filter (fun p => p.2.values.isSome)).map Prod.fst) ∧
      ms.Pairwise (fun a b => a.score ≤ b.score) := by
  simp only [query, ht, hq, hl] at hok
  cases hc : collectMatches (some q) tbl with
  | error e =>
    rw [hc] at hok
    exact Except.noConfusion hok
  | ok ms₀ =>
    rw [hc] at hok
    simp only [Except.ok.injEq] at hok
    subst hok
    refine ⟨ms₀.mergeSort sortLe, rfl, ?_, ?_⟩
    · have hperm := (List.mergeSort_perm ms₀ sortLe).map Match.id
      rw [collect_ids q tbl ms₀ hc] at hperm
      exact hperm
    · have hs := List.sorted_mergeSort sortLe_trans sortLe_total ms₀
      exact hs.imp (fun h => of_decide_eq_true h)

/-- An ineligible record (no `values`) used by the C5 witness. -/
def recC5b : DBUpsertRequest :=
  { id := ("b"), table := ("t"), values := none, metadata := none }

/-- C5 witness table: one eligible record, one record without `values`. -/
def tblC5 : Obj DBUpsertRequest :=
  [(("a" : String), recC1), (("b" : String), recC5b)]

/-- C5 witness store. -/
def dbC5 : MemoryDB := [(("t" : String), tblC5)]

/-- C5 witness query: no limit. -/
def reqC5 : DBQueryRequest :=
  { table := ("t"), values := some [(1 : ℝ)], limit := none }

/-- Concrete evaluation backing the C5 witness: the record without `values`
is skipped and the single eligible record is returned. -/
theorem queryC5_eval :
    query dbC5 reqC5
      = .ok ⟨[some { id := ("a"), score := 0, metadata := none }]⟩ := by
  have h1 : objGet dbC5 reqC5.table = some tblC5 := rfl
  have h2 : collectMatches reqC5.values tblC5
      = .ok [{ id := ("a"), score := 0, metadata := none }] := by
    simp [collectMatches, tblC5, recC1, recC5b, reqC5, distance_one_one]
  simp only [query, h1, h2]
  simp [reqC5, List.mergeSort_singleton]

/-- C5 witness: the theorem applied to the concrete store `dbC5`. -/
theorem claim_C5_witness :
    query dbC5 reqC5
        = .ok ⟨[some { id := ("a"), score := 0, metadata := none }]⟩ ∧
      ∃ ms : List Match,
        ([some { id := ("a"), score := (0 : ℝ), metadata := none }]
            : List (Option Match)) = ms.map some ∧
        (ms.map Match.id).Perm
          ((tblC5.filter (fun p => p.2.values.isSome)).map Prod.fst) ∧
        ms.Pairwise (fun a b => a.score ≤ b.score) :=
  ⟨queryC5_eval,
    claim_C5 dbC5 reqC5 tblC5 [(1 : ℝ)]
      ⟨[some { id := ("a"), score := 0, metadata := none }]⟩
      rfl rfl rfl queryC5_eval⟩

/-- C6: the table-not-found error occurs exactly when the table is absent;
and with the table present, any record whose `values` length differs from
the query vector's aborts the whole query with the dimension-mismatch
error. -/
theorem claim_C6 (db : MemoryDB) (req : DBQueryRequest) :
    (query db req = .error (.tableNotFound req.table)
        ↔ objGet db req.table = none)
    ∧ (∀ (tbl : Obj DBUpsertRequest) (q : List ℝ),
        objGet db req.table = some tbl → req.values = some q →
        (∃ p ∈ tbl, ∃ v, p.2.values = some v ∧ v.length ≠ q.length) →
        query db req = .error .dimensionMismatch) := by
  constructor
  · constructor
    · intro h
      cases ht : objGet db req.table with
      | none => rfl
      | some tbl =>
        simp only [query, ht] at h
        cases hc : collectMatches req.values tbl with
        | error e =>
          have hdim := collect_err req.values tbl e hc
          subst hdim
          simp [hc] at h
        | ok ms₀ =>
          cases hl : req.limit with
          | none => simp [hc, hl] at h
          | some k => by_cases hk : k ≠ 0 <;> simp [hc, hl, hk] at h
    · intro h
      simp only [query, h]
  · intro tbl q ht hq hex
    obtain ⟨e, he⟩ := collect_mismatch q tbl hex
    have hdim := collect_err (some q) tbl e he
    subst hdim
    simp only [query, ht, hq, he]

/-- A record with a 2-dimensional vector, used by the C6 witness. -/
def recC6 : DBUpsertRequest :=
  { id := ("a"), table := ("t"), values := some [(1 : ℝ), 2], metadata := none }

/-- C6 witness table. -/
def tblC6 : Obj DBUpsertRequest := [(("a" : String), recC6)]

/-- C6 witness store. -/
def dbC6 : MemoryDB := [(("t" : String), tblC6)]

/-- C6 witness query: a 1-dimensional query vector against a table holding
a 2-dimensional record. -/
def reqC6 : DBQueryRequest :=
  { table := ("t"), values := some [(1 : ℝ)], limit := none }

/-- C6 witness: querying a missing table throws table-not-found, and the
mixed-dimension query aborts with the dimension mismatch. -/
theorem claim_C6_witness :
    query ([] : MemoryDB) { table := ("m"), values := none, limit := none }
        = .error (.tableNotFound ("m"))
    ∧ query dbC6 reqC6 = .error .dimensionMismatch :=
  ⟨(claim_C6 [] { table := ("m"), values := none, limit := none }).1.mpr rfl,
    (claim_C6 dbC6 reqC6).2 tblC6 [(1 : ℝ)] rfl rfl
      ⟨((("a" : String), recC6)), List.mem_cons_self _ _,
        [(1 : ℝ), 2], rfl, by simp⟩⟩

/-- Reading back the key just written returns the value just written. -/
theorem objGet_objSet_self (m : Obj α) (k : String) (v : α) :
    objGet (objSet m k v) k = some v := by
  rw [objSet]
  by_cases hh : objHas m k
  · rw [if_pos hh]
    have hg : ∀ p : String × α, ((if p.1 == k then (k, v) else p)
        : String × α).1 = p.1 := by
      intro p
      by_cases hp : p.1 == k
      · rw [if_pos hp]
        exact (beq_iff_eq.mp hp).symm
      · rw [if_neg hp]
    rw [objGet_map_keys _ hg m k]
    rw [objHas, List.any_eq_true] at hh
    obtain ⟨x, hx, hpx⟩ := hh
    have hsome : (m.find? (fun p => p.1 == k)).isSome :=
      List.find?_isSome.mpr ⟨x, hx, hpx⟩
    obtain ⟨p₀, hf⟩ := Option.isSome_iff_exists.mp hsome
    rw [hf]
    have hp₀ : (p₀.1 == k) = true := by simpa using List.find?_some hf
    simp [hp₀, beq_iff_eq.mp hp₀]
  · rw [if_neg hh, objGet_append,
      objGet_eq_none_of_not_has m k (Bool.eq_false_iff.mpr hh)]
    simp [objGet_cons]

/-- Every entry of `objSet m k v` is either the written pair or an original
entry. -/
theorem mem_objSet (m : Obj α) (k : String) (v : α) (p : String × α)
    (hp : p ∈ objSet m k v) : p = (k, v) ∨ p ∈ m := by
  rw [objSet] at hp
  by_cases hh : objHas m k
  · rw [if_pos hh] at hp
    obtain ⟨q, hq, hEq⟩ := List.mem_map.mp hp
    by_cases hqk : q.1 == k
    · rw [if_pos hqk] at hEq
      exact Or.inl hEq.symm
    · rw [if_neg hqk] at hEq
      exact Or.inr (hEq ▸ hq)
  · rw [if_neg hh] at hp
    rcases List.mem_append.mp hp with h1 | h2
    · exact Or.inr h1
    · exact Or.inl (by simpa using h2)

/-- Writing a key preserves key-uniqueness of an object. -/
theorem WFobj_objSet (m : Obj α) (k : String) (v : α) (h : WFobj m) :
    WFobj (objSet m k v) := by
  rw [objSet]
  by_cases hh : objHas m k
  · rw [if_pos hh]
    have hkeys : ((m.map (fun p => if p.1 == k then (k, v) else p)).map
        Prod.fst) = m.map Prod.fst := by
      rw [List.map_map]
      refine List.map_congr_left ?_
      intro p _
      by_cases hp : p.1 == k
      · simp only [Function.comp, if_pos hp]
        exact (beq_iff_eq.mp hp).symm
      · simp only [Function.comp, if_neg hp]
    rw [WFobj, hkeys]
    exact h
  · rw [if_neg hh, WFobj, List.map_append]
    have hk : k ∉ m.map Prod.fst := by
      intro hmem
      obtain ⟨p, hp, hpk⟩ := List.mem_map.mp hmem
      exact hh (by
        rw [objHas]
        exact List.any_eq_true.mpr ⟨p, hp, by simp [hpk]⟩)
    rw [WFobj] at h
    simp [List.nodup_append, h, hk]

/-- `upsert` preserves store well-formedness. -/
theorem WF_upsert (db : MemoryDB) (req : DBUpsertRequest) (h : WF db) :
    WF (upsert db req).1 := by
  obtain ⟨h1, h2⟩ := h
  refine ⟨WFobj_objSet _ _ _ h1, ?_⟩
  intro p hp
  rcases mem_objSet _ _ _ p hp with rfl | hmem
  · cases hg : objGet db req.table with
    | none => exact WFobj_objSet [] _ _ (by simp [WFobj])
    | some t0 =>
      have hg' : (db.find? (fun p => p.1 == req.table)).map Prod.snd
          = some t0 := hg
      cases hf : db.find? (fun p => p.1 == req.table) with
      | none =>
        rw [hf] at hg'
        exact Option.noConfusion hg'
      | some p₀ =>
        rw [hf] at hg'
        have hp₀mem := List.mem_of_find?_eq_some hf
        have ht0 : p₀.2 = t0 := by simpa using hg'
        exact WFobj_objSet _ _ _ (ht0 ▸ h2 p₀ hp₀mem)
  · exact h2 p hmem

/-- In a duplicate-free object, a member pair is what lookup returns. -/
theorem objGet_of_mem (m : Obj α) (k : String) (v : α) (hWF : WFobj m)
    (hmem : (k, v) ∈ m) : objGet m k = some v := by
  induction m with
  | nil => simp at hmem
  | cons q rest ih =>
    rw [WFobj, List.map_cons, List.nodup_cons] at hWF
    rcases List.mem_cons.mp hmem with rfl | hmem'
    · simp [objGet_cons]
    · have hknotq : (q.1 == k) = false := by
        refine beq_eq_false_iff_ne.mpr ?_
        intro hEq
        exact hWF.1 (hEq ▸ List.mem_map.mpr ⟨(k, v), hmem', rfl⟩)
      rw [objGet_cons, if_neg (by simp [hknotq])]
      exact ih hWF.2 hmem'

/-- Lookup success means the pair is in the object. -/
theorem mem_of_objGet (m : Obj α) (k : String) (v : α)
    (h : objGet m k = some v) : (k, v) ∈ m := by
  rw [objGet] at h
  cases hf : m.find? (fun p => p.1 == k) with
  | none =>
    rw [hf] at h
    exact Option.noConfusion h
  | some p₀ =>
    rw [hf] at h
    have h1 : p₀.1 = k := by simpa using List.find?_some hf
    have h2 : p₀.2 = v := by simpa using h
    have h3 := List.mem_of_find?_eq_some hf
    rw [← h1, ← h2, Prod.mk.eta]
    exact h3

/-- Any defined entry of a successful query's result array comes from a
record of the looked-up table, and forces the query vector to be present. -/
theorem query_mem (db : MemoryDB) (req : DBQueryRequest)
    (resp : DBQueryResponse) (m : Match) (hok : query db req = .ok resp)
    (hm : some m ∈ resp.matches') :
    ∃ tbl q ms₀, objGet db req.table = some tbl ∧ req.values = some q ∧
      collectMatches (some q) tbl = .ok ms₀ ∧ m ∈ ms₀ := by
  cases ht : objGet db req.table with
  | none =>
    simp only [query, ht] at hok
    exact Except.noConfusion hok
  | some tbl =>
    simp only [query, ht] at hok
    cases hc : collectMatches req.values tbl with
    | error e =>
      rw [hc] at hok
      exact Except.noConfusion hok
    | ok ms₀ =>
      have hsorted : m ∈ ms₀ := by
        cases hl : req.limit with
        | none =>
          simp only [hc, hl, Except.ok.injEq] at hok
          subst hok
          obtain ⟨y, hy, hyx⟩ := List.mem_map.mp hm
          injection hyx with h''
          exact List.mem_mergeSort.mp (h'' ▸ hy)
        | some k =>
          by_cases hk : k ≠ 0
          · simp only [hc, hl, if_pos hk, Except.ok.injEq] at hok
            subst hok
            exact List.mem_mergeSort.mp (some_mem_setLength _ _ _ hm)
          · simp only [hc, hl, if_neg hk, Except.ok.injEq] at hok
            subst hok
            obtain ⟨y, hy, hyx⟩ := List.mem_map.mp hm
            injection hyx with h''
            exact List.mem_mergeSort.mp (h'' ▸ hy)
      cases hqv : req.values with
      | none =>
        rw [hqv, collect_none] at hc
        simp only [Except.ok.injEq] at hc
        rw [← hc] at hsorted
        simp at hsorted
      | some q =>
        rw [hqv] at hc
        exact ⟨tbl, q, ms₀, rfl, rfl, hc, hsorted⟩

/-- C7: upserting twice under the same table and id leaves the latest record
as the sole binding for that id (ids stay unique), and every query match for
that id carries the latest metadata and a score computed from the latest
values. -/
theorem claim_C7 (db : MemoryDB) (r1 r2 : DBUpsertRequest)
    (hT : r1.table = r2.table) (hI : r1.id = r2.id) (hWF : WF db) :
    objGet ((objGet (upsert (upsert db r1).1 r2).1 r2.table).getD [])
        r2.id = some r2
    ∧ WF (upsert (upsert db r1).1 r2).1
    ∧ (∀ (req : DBQueryRequest) (resp : DBQueryResponse) (m : Match),
        req.table = r2.table →
        query (upsert (upsert db r1).1 r2).1 req = .ok resp →
        some m ∈ resp.matches' → m.id = r2.id →
        m.metadata = r2.metadata ∧
        ∃ q v, req.values = some q ∧ r2.values = some v ∧
          distance q v = .ok m.score) := by
  have hWF2 : WF (upsert (upsert db r1).1 r2).1 :=
    WF_upsert _ _ (WF_upsert _ _ hWF)
  have htbl2 : objGet (upsert (upsert db r1).1 r2).1 r2.table
      = some (objSet ((objGet (upsert db r1).1 r2.table).getD [])
          r2.id r2) := by
    rw [upsert]
    exact objGet_objSet_self _ _ _
  have hid2 : objGet (objSet ((objGet (upsert db r1).1 r2.table).getD [])
      r2.id r2) r2.id = some r2 := objGet_objSet_self _ _ _
  refine ⟨?_, hWF2, ?_⟩
  · rw [htbl2]
    exact hid2
  · intro req resp m hreqT hok hmem hid
    obtain ⟨tbl', q, ms₀, ht', hq', hc, hm₀⟩ :=
      query_mem _ req resp m hok hmem
    rw [hreqT, htbl2] at ht'
    injection ht' with ht''
    obtain ⟨data, v, hmemtbl, hval, hdist, hmeta⟩ :=
      collect_mem q tbl' ms₀ m hc hm₀
    have hWFtbl : WFobj tbl' := by
      refine hWF2.2 (r2.table, tbl') ?_
      exact mem_of_objGet _ _ _ (ht'' ▸ htbl2)
    have hdata : objGet tbl' m.id = some data :=
      objGet_of_mem tbl' m.id data hWFtbl hmemtbl
    rw [hid, ← ht''] at hdata
    rw [hid2] at hdata
    injection hdata with hdata'
    subst hdata'
    exact ⟨hmeta, q, v, hq', hval, hdist⟩

/-- First upsert of the C7 witness. -/
def r1W : DBUpsertRequest :=
  { id := ("a"), table := ("t"), values := some [(1 : ℝ)],
    metadata := some [(("k" : String), ("1" : String))] }

/-- Second upsert of the C7 witness: same table and id, new metadata. -/
def r2W : DBUpsertRequest :=
  { id := ("a"), table := ("t"), values := some [(1 : ℝ)],
    metadata := some [(("k" : String), ("2" : String))] }

/-- C7 witness query. -/
def reqC7 : DBQueryRequest :=
  { table := ("t"), values := some [(1 : ℝ)], limit := none }

/-- The single match of the C7 witness query: latest metadata. -/
def mW : Match :=
  { id := ("a"), score := 0,
    metadata := some [(("k" : String), ("2" : String))] }

/-- Concrete evaluation backing the C7 witness: after the double upsert the
query returns the latest record only. -/
theorem queryC7_eval :
    query (upsert (upsert [] r1W).1 r2W).1 reqC7 = .ok ⟨[some mW]⟩ := by
  have h0 : (upsert (upsert [] r1W).1 r2W).1
      = [(("t" : String), [(("a" : String), r2W)])] := rfl
  have h1 : objGet [(("t" : String), [(("a" : String), r2W)])] reqC7.table
      = some [(("a" : String), r2W)] := rfl
  have h2 : collectMatches reqC7.values [(("a" : String), r2W)]
      = .ok [mW] := by
    simp [collectMatches, r2W, reqC7, mW, distance_one_one]
  rw [h0]
  simp only [query, h1, h2]
  simp [reqC7, List.mergeSort_singleton]

/-- C7 witness: the theorem applied to the concrete double upsert. -/
theorem claim_C7_witness :
    objGet ((objGet (upsert (upsert [] r1W).1 r2W).1 r2W.table).getD [])
        r2W.id = some r2W
    ∧ mW.metadata = r2W.metadata
    ∧ ∃ q v, reqC7.values = some q ∧ r2W.values = some v ∧
        distance q v = .ok mW.score := by
  have hC := claim_C7 [] r1W r2W rfl rfl ⟨by simp [WFobj], by simp⟩
  have h3 := hC.2.2 reqC7 ⟨[some mW]⟩ mW rfl queryC7_eval
    (List.mem_cons_self _ _) rfl
  exact ⟨hC.1, h3.1, h3.2⟩

end AX
